import Mathlib

/-!
Verification of the kala content-addressable store core against its
natural-language specification.

Each section shallowly embeds one component of the Go source:

* `Wutil`   — the Parts assembler `WriteData` (src/unnamed/part_001).
* `Disk`    — the on-disk blob store `Disk` (src/unnamed/part_000).
* `Fixity`  — `Block`/`Content` back-pointer walking (src/unnamed/part_007)
              and the `Local.Write` block-chain append (src/q/fromstring.go,
              second file, package local).
* `Q`       — the textual query parser `FromString` (src/q/fromstring.go).
* `Dbindex` — `Dbindex.Query` (src/index/dbindex/index.go) and the HTTP
              handlers (src/node/handlers.go).

Machine integers are modelled as `Nat`/`Int`; fallible Go functions return
`Except`.  External collaborators that are not part of this repository
(the blake2b library, the `mgutz/str` tokenizer, the fixity query builder,
the database backing the index) are modelled from the spec and are marked
as such in their doc comments.
-/

namespace Wutil

/-- Page size of a Parts page; `partSize` in src/unnamed/part_001. -/
def partSize : Nat := 100

/-- Embedding of `fixity.PartsSchema`: a page of chunk refs plus an optional
link to more parts (`MoreParts *fixity.Ref`). The schema-type tag is constant
and omitted. -/
structure PartsSchema where
  parts : List String
  moreParts : Option String
deriving DecidableEq, Repr

/-- Embedding of `fixity.DataSchema`: the terminal Data node with an embedded
page of refs, an optional parts link, the total size and the checksum. -/
structure DataSchema where
  parts : List String
  moreParts : Option String
  size : Int
  checksum : String
deriving DecidableEq, Repr

/-- The blobs written by one `WriteData` call, newest first. -/
abbrev BlobStore := List (String × PartsSchema)

/-- Modelled from the spec: the external `fixity.BlobWriter` assigns every
written page a Ref (`Store: Write(bytes)->ref`).  Distinct pages written by
one call receive distinct refs; we model the writer as handing out a fresh
ref per write, keyed by how many blobs it has written so far. -/
def freshRef (st : BlobStore) : String :=
  String.mk (List.replicate (st.length + 1) 'p')

/-- Look a ref up among the written blobs (the `Store.Read` direction). -/
def findBlob (r : String) : BlobStore → Option PartsSchema
  | [] => none
  | (k, p) :: rest => if k = r then some p else findBlob r rest

/-- The slice `chunkRefs[startBound:endBound]` taken by iteration `i` of the
parts loop in `WriteData`: `startBound = partSize*i`, and for the highest
iteration (`i == morePartCount`) the end bound is
`startBound + chunkRefLen%partSize` instead of a full page. -/
def pageSlice (chunkRefs : List String) (chunkRefLen m i : Nat) : List String :=
  let startBound := partSize * i
  let endBound :=
    if i = m then startBound + chunkRefLen % partSize else startBound + partSize
  (chunkRefs.take endBound).drop startBound

/-- The parts-writing loop of `WriteData`: `for i := morePartCount; i > 0; i--`,
each iteration marshalling one `PartsSchema` whose `MoreParts` is the ref
written by the previous iteration. -/
def writeParts (chunkRefs : List String) (chunkRefLen m : Nat) :
    Nat → Option String → BlobStore → Option String × BlobStore
  | 0, lastPart, st => (lastPart, st)
  | i + 1, lastPart, st =>
    let page : PartsSchema := ⟨pageSlice chunkRefs chunkRefLen m (i + 1), lastPart⟩
    let r := freshRef st
    writeParts chunkRefs chunkRefLen m i (some r) ((r, page) :: st)

/-- Result of `WriteData`: the terminal `DataSchema` plus the written pages. -/
structure WriteDataResult where
  data : DataSchema
  pages : BlobStore
deriving DecidableEq, Repr

/-- Embedding of `WriteData` (src/unnamed/part_001 lines 16..80).
`morePartCount := (chunkRefLen - 1) / partSize`: Go's `-1/100` truncates to
`0`, which `Nat` subtraction reproduces at `chunkRefLen = 0`.  After the
parts loop the Data node embeds `chunkRefs[0:endBound]` with
`endBound = min(chunkRefLen, partSize)` and links to the last written page. -/
def writeData (chunkRefs : List String) (totalSize : Int) (contentHash : String) :
    WriteDataResult :=
  let chunkRefLen := chunkRefs.length
  let morePartCount := (chunkRefLen - 1) / partSize
  let out := writeParts chunkRefs chunkRefLen morePartCount morePartCount none []
  let endBound := if chunkRefLen < partSize then chunkRefLen else partSize
  { data :=
      { parts := chunkRefs.take endBound
        moreParts := out.1
        size := totalSize
        checksum := contentHash }
    pages := out.2 }

/-- Modelled from the spec: `ReadParts` (src/store/helper.go) is
`not implemented`; §4.3 describes reading as following `morePartsRef` from
the Data node.  `chainRead` returns the concatenation, in follow order, of
the pages reachable from a ref; the fuel bounds the walk. -/
def chainRead (st : BlobStore) : Nat → Option String → List String
  | _, none => []
  | 0, some _ => []
  | fuel + 1, some r =>
    match findBlob r st with
    | none => []
    | some p => p.parts ++ chainRead st fuel p.moreParts

/-- Modelled from the spec, amended direction: read the Data node's embedded
refs and then each followed page appended after them. -/
def readAppend (res : WriteDataResult) : List String :=
  res.data.parts ++ chainRead res.pages res.pages.length res.data.moreParts

/-- The pages reachable from a ref, page by page, in follow order. -/
def chainPages (st : BlobStore) : Nat → Option String → List (List String)
  | _, none => []
  | 0, some _ => []
  | fuel + 1, some r =>
    match findBlob r st with
    | none => []
    | some p => p.parts :: chainPages st fuel p.moreParts

/-- Modelled from the spec's words (§4.3): start at Data, read embedded refs,
follow `morePartsRef`, prepending each page, until empty. -/
def readPrepend (res : WriteDataResult) : List String :=
  (chainPages res.pages res.pages.length res.data.moreParts).foldl
    (fun acc ps => ps ++ acc) res.data.parts

/-- Every key and every stored `moreParts` ref of the store is a ref whose
string length is bounded by the store's size; this is the freshness invariant
maintained by `writeParts`. -/
def KeysBound (st : BlobStore) : Prop :=
  ∀ kp ∈ st, kp.1.length ≤ st.length ∧
    ∀ r, kp.2.moreParts = some r → r.length ≤ st.length

/-- An optional ref whose length is bounded by the store's size. -/
def RefBound (st : BlobStore) (o : Option String) : Prop :=
  ∀ r, o = some r → r.length ≤ st.length

theorem findBlob_mem {r : String} {q : PartsSchema} :
    ∀ {st : BlobStore}, findBlob r st = some q → (r, q) ∈ st := by
  intro st
  induction st with
  | nil => intro h; simp [findBlob] at h
  | cons kp rest ih =>
    intro h
    obtain ⟨k, p⟩ := kp
    by_cases hk : k = r
    · subst hk
      simp [findBlob] at h
      subst h
      exact List.mem_cons_self _ _
    · simp [findBlob, hk] at h
      exact List.mem_cons_of_mem _ (ih h)

theorem chainRead_cons (st : BlobStore) (k : String) (p : PartsSchema)
    (hst : KeysBound st) (hk : st.length < k.length) :
    ∀ fuel o, RefBound st o → chainRead ((k, p) :: st) fuel o = chainRead st fuel o := by
  intro fuel
  induction fuel with
  | zero => intro o _; cases o <;> simp [chainRead]
  | succ fuel ih =>
    intro o ho
    cases o with
    | none => simp [chainRead]
    | some r =>
      have hr : r.length ≤ st.length := ho r rfl
      have hne : k ≠ r := by
        intro h; subst h; omega
      simp only [chainRead, findBlob, if_neg hne]
      cases hfind : findBlob r st with
      | none => rfl
      | some q =>
        have hmem := findBlob_mem hfind
        have hq := (hst _ hmem).2
        have hrb : RefBound st q.moreParts := fun r' hr' => hq r' hr'
        show q.parts ++ chainRead ((k, p) :: st) fuel q.moreParts =
          q.parts ++ chainRead st fuel q.moreParts
        rw [ih _ hrb]

theorem writeParts_spec (refs : List String) (L m : Nat) :
    ∀ (i : Nat) (lastPart : Option String) (st : BlobStore),
      KeysBound st → RefBound st lastPart →
      (writeParts refs L m i lastPart st).2.length = st.length + i ∧
      KeysBound (writeParts refs L m i lastPart st).2 ∧
      (∀ kp ∈ (writeParts refs L m i lastPart st).2,
        kp ∈ st ∨ ∃ j, 1 ≤ j ∧ j ≤ i ∧ kp.2.parts = pageSlice refs L m j) ∧
      (∀ fuel, chainRead (writeParts refs L m i lastPart st).2 (i + fuel)
          (writeParts refs L m i lastPart st).1 =
        ((List.range i).map (fun j => pageSlice refs L m (j + 1))).flatten ++
          chainRead st fuel lastPart) := by
  intro i
  induction i with
  | zero =>
    intro lastPart st hst hlast
    refine ⟨rfl, hst, ?_, ?_⟩
    · intro kp hkp; exact Or.inl hkp
    · intro fuel; simp [writeParts]
  | succ i ih =>
    intro lastPart st hst hlast
    set r := freshRef st with hr
    set page : PartsSchema := ⟨pageSlice refs L m (i + 1), lastPart⟩ with hpage
    set st' : BlobStore := (r, page) :: st with hst'
    have hrlen : r.length = st.length + 1 := by
      simp [hr, freshRef]
    have hlen' : st'.length = st.length + 1 := by simp [hst']
    have hkeys' : KeysBound st' := by
      intro kp hkp
      rcases List.mem_cons.mp hkp with h | h
      · subst h
        constructor
        · simp [hlen', hrlen]
        · intro r' hr'
          have := hlast r' hr'
          omega
      · have := hst kp h
        constructor
        · omega
        · intro r' hr'
          have := this.2 r' hr'
          omega
    have href' : RefBound st' (some r) := by
      intro r' hr'
      cases hr'
      omega
    have hunfold : writeParts refs L m (i + 1) lastPart st =
        writeParts refs L m i (some r) st' := rfl
    obtain ⟨ihlen, ihkeys, ihmem, ihchain⟩ := ih (some r) st' hkeys' href'
    rw [hunfold]
    refine ⟨by omega, ihkeys, ?_, ?_⟩
    · intro kp hkp
      rcases ihmem kp hkp with h | ⟨j, hj1, hj2, hj3⟩
      · rcases List.mem_cons.mp h with h | h
        · subst h
          exact Or.inr ⟨i + 1, by omega, by omega, rfl⟩
        · exact Or.inl h
      · exact Or.inr ⟨j, hj1, by omega, hj3⟩
    · intro fuel
      have h1 : i + 1 + fuel = i + (fuel + 1) := by omega
      rw [h1, ihchain (fuel + 1)]
      have h2 : chainRead st' (fuel + 1) (some r) =
          page.parts ++ chainRead st' fuel lastPart := by
        simp [chainRead, hst', findBlob, hpage]
      have h3 : chainRead st' fuel lastPart = chainRead st fuel lastPart := by
        rw [hst']
        exact chainRead_cons st r page hst (by omega) fuel lastPart hlast
      rw [h2, h3, hpage]
      simp [List.range_succ, List.append_assoc]

theorem join_full_slices (refs : List String) (L m : Nat) :
    ∀ t, t < m →
      ((List.range t).map (fun j => pageSlice refs L m (j + 1))).flatten =
        (refs.drop partSize).take (partSize * t) := by
  intro t
  induction t with
  | zero => intro _; simp
  | succ t ih =>
    intro ht
    have ht' : t < m := by omega
    have hne : t + 1 ≠ m := by omega
    rw [List.range_succ, List.map_append, List.flatten_append, ih ht']
    simp only [List.map_cons, List.map_nil, List.flatten_cons, List.flatten_nil,
      List.append_nil]
    have hslice : pageSlice refs L m (t + 1) =
        ((refs.drop partSize).drop (partSize * t)).take partSize := by
      simp only [pageSlice, if_neg hne]
      rw [List.drop_take]
      rw [List.drop_drop]
      congr 1
      · omega
      · congr 1; ring
    rw [hslice]
    have harith : partSize * (t + 1) = partSize * t + partSize := by ring
    rw [harith, List.take_add]

theorem writeData_pages_length (refs : List String) (sz : Int) (ck : String) :
    (writeData refs sz ck).pages.length = (refs.length - 1) / partSize := by
  have h := writeParts_spec refs refs.length ((refs.length - 1) / partSize)
    ((refs.length - 1) / partSize) none []
    (by intro kp hkp; simp at hkp) (by intro r hr; simp at hr)
  simpa [writeData] using h.1

theorem writeData_chain (refs : List String) (sz : Int) (ck : String) :
    chainRead (writeData refs sz ck).pages (writeData refs sz ck).pages.length
        (writeData refs sz ck).data.moreParts =
      ((List.range ((refs.length - 1) / partSize)).map
        (fun j => pageSlice refs refs.length ((refs.length - 1) / partSize) (j + 1))).flatten := by
  have h := writeParts_spec refs refs.length ((refs.length - 1) / partSize)
    ((refs.length - 1) / partSize) none []
    (by intro kp hkp; simp at hkp) (by intro r hr; simp at hr)
  have hl := h.1
  have hc := h.2.2.2 0
  simp only [List.length_nil, Nat.zero_add] at hl
  simp only [chainRead, List.append_nil] at hc
  have : (writeData refs sz ck).pages.length = (refs.length - 1) / partSize := by
    simpa [writeData] using hl
  rw [this]
  have h0 : (refs.length - 1) / partSize = (refs.length - 1) / partSize + 0 := rfl
  rw [h0]
  simpa [writeData] using hc

theorem writeData_readAppend (refs : List String) (sz : Int) (ck : String) :
    readAppend (writeData refs sz ck) =
      refs.take (if partSize < refs.length ∧ refs.length % partSize = 0
                 then refs.length - partSize else refs.length) := by
  set L := refs.length with hL
  set m := (L - 1) / partSize with hm
  have hdata : (writeData refs sz ck).data.parts =
      refs.take (if L < partSize then L else partSize) := rfl
  rw [readAppend, hdata, writeData_chain refs sz ck]
  rw [← hL, ← hm]
  cases hmc : m with
  | zero =>
    have hLle : L ≤ partSize := by
      have : (L - 1) / partSize = 0 := by rw [← hm, hmc]
      simp only [partSize] at this ⊢
      omega
    have hcond : ¬ (partSize < L ∧ L % partSize = 0) := by
      simp only [partSize] at hLle ⊢
      omega
    rw [if_neg hcond]
    simp only [List.range_zero, List.map_nil, List.flatten_nil, List.append_nil]
    by_cases hlt : L < partSize
    · rw [if_pos hlt]
    · rw [if_neg hlt]
      rw [List.take_of_length_le (by omega), List.take_of_length_le (by omega)]
  | succ s =>
    have hL101 : partSize + 1 ≤ L := by
      have : (L - 1) / partSize = s + 1 := by rw [← hm, hmc]
      simp only [partSize] at this ⊢
      omega
    have hnotlt : ¬ L < partSize := by omega
    rw [if_neg hnotlt]
    rw [List.range_succ, List.map_append, List.flatten_append]
    rw [join_full_slices refs L (s + 1) s (by omega)]
    simp only [List.map_cons, List.map_nil, List.flatten_cons, List.flatten_nil,
      List.append_nil]
    have hslice : pageSlice refs L (s + 1) (s + 1) =
        ((refs.drop partSize).drop (partSize * s)).take (L % partSize) := by
      have h0 : pageSlice refs L (s + 1) (s + 1) =
          (refs.take (partSize * (s + 1) + L % partSize)).drop (partSize * (s + 1)) := by
        simp [pageSlice]
      rw [h0, List.drop_take, List.drop_drop]
      congr 1
      · omega
      · congr 1; ring
    rw [hslice]
    rw [← List.take_add]
    rw [← List.take_add]
    congr 1
    have hms : (L - 1) / 100 = s + 1 := by
      have := hm.symm.trans hmc
      simpa [partSize] using this
    simp only [partSize]
    split <;> omega

theorem pageSlice_length_le (refs : List String) (L m j : Nat) :
    (pageSlice refs L m j).length ≤ partSize := by
  have hmod : L % partSize < partSize := Nat.mod_lt _ (by simp [partSize])
  simp only [pageSlice]
  split <;> simp [List.length_drop, List.length_take] <;> omega

/-- A sample ref list of length `partSize + 1 = 101`. -/
def refs101 : List String :=
  (List.range (partSize + 1)).map (fun n => String.mk (List.replicate n 'a'))

/-- C1 (amended): for every ordered chunk-ref list, `WriteData` produces a
layout in which every written Parts page and the Data node's embedded list
hold at most `pageSize` (100) refs; the number of written intermediate Parts
pages is `(refCount - 1) / pageSize` (so the total page count including the
Data node's embedded list is `ceil(refCount / pageSize)` for `refCount ≥ 1`
and `1` for `refCount = 0`); the Data node directly embeds the FIRST
`min(refCount, pageSize)` refs; and reading forward from the Data node
(embedded refs first, then each page reached via `morePartsRef` appended)
yields the original list — except when `refCount` is a multiple of
`pageSize` exceeding it, where the final `pageSize` refs are missing from
the layout because the newest page is written with an empty slice. -/
theorem writeData_layout (refs : List String) (sz : Int) (ck : String) :
    (writeData refs sz ck).data.parts.length ≤ partSize ∧
    (∀ kp ∈ (writeData refs sz ck).pages, kp.2.parts.length ≤ partSize) ∧
    (writeData refs sz ck).pages.length = (refs.length - 1) / partSize ∧
    (writeData refs sz ck).data.parts = refs.take partSize ∧
    readAppend (writeData refs sz ck) =
      refs.take (if partSize < refs.length ∧ refs.length % partSize = 0
                 then refs.length - partSize else refs.length) := by
  have hspec := writeParts_spec refs refs.length ((refs.length - 1) / partSize)
    ((refs.length - 1) / partSize) none []
    (by intro kp hkp; simp at hkp) (by intro r hr; simp at hr)
  have hdata : (writeData refs sz ck).data.parts =
      refs.take (if refs.length < partSize then refs.length else partSize) := rfl
  have htake : (writeData refs sz ck).data.parts = refs.take partSize := by
    rw [hdata]
    by_cases hlt : refs.length < partSize
    · rw [if_pos hlt, List.take_of_length_le (le_refl _),
        List.take_of_length_le (by omega)]
    · rw [if_neg hlt]
  refine ⟨?_, ?_, writeData_pages_length refs sz ck, htake, writeData_readAppend refs sz ck⟩
  · rw [htake]
    exact List.length_take_le _ _
  · intro kp hkp
    have hmem := hspec.2.2.1 kp (by simpa [writeData] using hkp)
    rcases hmem with h | ⟨j, _, _, hj⟩
    · simp at h
    · rw [hj]
      exact pageSlice_length_le refs refs.length ((refs.length - 1) / partSize) j

/-- C1 witness: the layout theorem instantiated at a one-element ref list. -/
theorem writeData_layout_witness :
    (writeData ["a"] 0 "ck").data.parts.length ≤ partSize ∧
    (writeData ["a"] 0 "ck").pages.length = (1 - 1) / partSize :=
  ⟨(writeData_layout ["a"] 0 "ck").1, (writeData_layout ["a"] 0 "ck").2.2.1⟩

/-- C1 counterexample: at 101 refs the code writes two pages in total, one of
them partial (1 ref), although the claim allows a partial page only when a
sole page exists; and the Data node embeds the first 100 refs rather than the
last (partial) page the claim describes. -/
theorem writeData_claim_false_at_101 :
    ¬ ((1 < (writeData refs101 0 "ck").pages.length + 1 →
        ∀ kp ∈ (writeData refs101 0 "ck").pages, kp.2.parts.length = partSize) ∧
      (writeData refs101 0 "ck").data.parts =
        refs101.drop (partSize * ((refs101.length - 1) / partSize))) := by
  decide

/-- C2 (amended): assembling any ref list of length 0, 1, `pageSize`,
`pageSize+1` or `3*pageSize+7` and reading it back — starting at the Data
node's embedded refs and following `morePartsRef`, APPENDING each page —
reproduces the original ordered list exactly.  (The spec's prepend direction
is refuted by `readPrepend_not_roundTrip`.) -/
theorem writeData_roundTrip (refs : List String) (sz : Int) (ck : String)
    (h : refs.length = 0 ∨ refs.length = 1 ∨ refs.length = partSize ∨
      refs.length = partSize + 1 ∨ refs.length = 3 * partSize + 7) :
    readAppend (writeData refs sz ck) = refs := by
  rw [writeData_readAppend]
  have hcond : ¬ (partSize < refs.length ∧ refs.length % partSize = 0) := by
    simp only [partSize] at h ⊢
    omega
  rw [if_neg hcond]
  exact List.take_length refs

/-- C2 witness: round trip at the concrete one-element list. -/
theorem writeData_roundTrip_witness :
    readAppend (writeData ["a"] 0 "ck") = ["a"] :=
  writeData_roundTrip ["a"] 0 "ck" (Or.inr (Or.inl rfl))

/-- C2 counterexample: at length `pageSize + 1` the spec's prepend-reading
(`readPrepend`) does NOT reproduce the original list — the Data node holds
the first page, so pages must be appended, not prepended. -/
theorem readPrepend_not_roundTrip :
    readPrepend (writeData refs101 0 "ck") ≠ refs101 := by
  decide

end Wutil

namespace DiskStore

/-- Byte strings are lists of byte values. -/
abbrev Bytes := List Nat

/-- The typed store errors declared by the kala `store` package (the
declarations themselves are not under src; only their uses are).
`hashNotMatchContent` is `store.HashNotMatchContentErr`, `hashNotFound` is
`store.HashNotFoundErr`. -/
inductive StoreErr where
  | hashNotMatchContent
  | hashNotFound
deriving DecidableEq, Repr

/-- Modelled from the spec: the blake2b library
(`github.com/minio/blake2b-simd`) is an external dependency, not part of
this repository.  The spec requires only a pure bytes→digest function
("Hasher: pure bytes→Ref function"); we model `blake2b.Sum256` as a
deterministic 32-byte digest of the input bytes. -/
def blake2bSum256 (b : Bytes) : Bytes :=
  let seed := b.foldl (fun acc x => (acc * 257 + x + 1) % 2 ^ 256) 1
  (List.range 32).map (fun i => seed / 2 ^ (8 * i) % 256)

/-- Lower-case hex digit, as produced by Go's `encoding/hex`. -/
def hexDigit (n : Nat) : Char :=
  if n < 10 then Char.ofNat (48 + n) else Char.ofNat (87 + n)

/-- Embedding of `hex.EncodeToString`: two lower-case hex chars per byte. -/
def hexEncode (bs : Bytes) : String :=
  String.mk ((bs.map (fun b => [hexDigit (b / 16), hexDigit (b % 16)])).flatten)

/-- Embedding of `Disk.Hash` (src/unnamed/part_000): the algorithm-tagged
content hash `"blake2b256-" + hex(blake2b.Sum256(b))`. -/
def diskHash (b : Bytes) : String :=
  "blake2b256-" ++ hexEncode (blake2bSum256 b)

/-- The Disk store's directory: one file per hash. -/
structure Disk where
  files : List (String × Bytes)
deriving DecidableEq

/-- File lookup by name (path = hash). -/
def findFile (h : String) : List (String × Bytes) → Option Bytes
  | [] => none
  | (k, b) :: rest => if k = h then some b else findFile h rest

/-- Embedding of `Disk.Exists`: `os.Stat` succeeds iff the file exists. -/
def diskExists (s : Disk) (h : String) : Bool :=
  (findFile h s.files).isSome

/-- Embedding of `Disk.Read`: open the file, `HashNotFoundErr` if absent. -/
def diskRead (s : Disk) (h : String) : Except StoreErr Bytes :=
  match findFile h s.files with
  | none => .error .hashNotFound
  | some b => .ok b

/-- Embedding of the trusted lower-case `Disk.writeHash`: writes the file at
path `h` unconditionally (`ioutil.WriteFile` creates or overwrites). -/
def writeHashTrusted (s : Disk) (h : String) (b : Bytes) : Disk :=
  ⟨(h, b) :: s.files⟩

/-- Embedding of `Disk.WriteHash`: recompute the hash of the content and
refuse with `HashNotMatchContentErr` before writing anything if it does not
match the caller-supplied hash. -/
def diskWriteHash (s : Disk) (h : String) (b : Bytes) : Except StoreErr Disk :=
  if h ≠ diskHash b then .error .hashNotMatchContent
  else .ok (writeHashTrusted s h b)

/-- The store state after a `WriteHash` call: Go mutates nothing on the
error path, so the caller's state is unchanged there. -/
def diskWriteHashState (s : Disk) (h : String) (b : Bytes) : Disk :=
  match diskWriteHash s h b with
  | .error _ => s
  | .ok s' => s'

/-- Embedding of `Disk.Write`: hash the content, write it under its own
hash, return the hash. -/
def diskWrite (s : Disk) (b : Bytes) : String × Disk :=
  let h := diskHash b
  (h, writeHashTrusted s h b)

/-- C3: `WriteHash(ref, bytes)` succeeds only if `Hasher(bytes) == ref`;
when they differ it returns the typed `HashNotMatchContentErr`, the store is
unchanged, and in particular `Exists(ref)` keeps its prior value (so it
remains false if it was false before the call). -/
theorem diskWriteHash_spec :
    (∀ (s : Disk) (h : String) (b : Bytes) (s' : Disk),
      diskWriteHash s h b = .ok s' → h = diskHash b) ∧
    ∀ (s : Disk) (h : String) (b : Bytes), h ≠ diskHash b →
      diskWriteHash s h b = .error .hashNotMatchContent ∧
      diskWriteHashState s h b = s ∧
      diskExists (diskWriteHashState s h b) h = diskExists s h := by
  constructor
  · intro s h b s' hok
    by_cases hne : h = diskHash b
    · exact hne
    · simp [diskWriteHash, hne] at hok
  · intro s h b hne
    refine ⟨by simp [diskWriteHash, hne], ?_, ?_⟩ <;>
      simp [diskWriteHashState, diskWriteHash, hne]

/-- C3 witness: a mismatching write on the empty store is rejected and the
ref still does not exist. -/
theorem diskWriteHash_spec_witness :
    diskWriteHash ⟨[]⟩ "bogus" [1, 2, 3] = .error .hashNotMatchContent ∧
    diskWriteHashState ⟨[]⟩ "bogus" [1, 2, 3] = ⟨[]⟩ ∧
    diskExists (diskWriteHashState ⟨[]⟩ "bogus" [1, 2, 3]) "bogus" =
      diskExists ⟨[]⟩ "bogus" :=
  diskWriteHash_spec.2 ⟨[]⟩ "bogus" [1, 2, 3] (by decide)

/-- C9: `Disk.Write` called twice returns the same Ref both times; the Ref
is `Hash(bytes)`, a deterministic, algorithm-tagged (`"blake2b256-"` prefixed)
function of the bytes alone. -/
theorem diskWrite_deterministic :
    ∀ (s : Disk) (b : Bytes),
      (diskWrite s b).1 = diskHash b ∧
      (diskWrite (diskWrite s b).2 b).1 = (diskWrite s b).1 ∧
      (∀ b' : Bytes, b' = b → diskHash b' = diskHash b) ∧
      ∃ digest, diskHash b = "blake2b256-" ++ digest := by
  intro s b
  exact ⟨rfl, rfl, fun b' hb => by rw [hb], ⟨hexEncode (blake2bSum256 b), rfl⟩⟩

/-- C9 witness: determinism at a concrete store and byte string. -/
theorem diskWrite_deterministic_witness :
    (diskWrite ⟨[]⟩ [7, 7]).1 = diskHash [7, 7] ∧
    (diskWrite (diskWrite ⟨[]⟩ [7, 7]).2 [7, 7]).1 = (diskWrite ⟨[]⟩ [7, 7]).1 :=
  ⟨(diskWrite_deterministic ⟨[]⟩ [7, 7]).1, (diskWrite_deterministic ⟨[]⟩ [7, 7]).2.1⟩

end DiskStore

namespace Fixity

/-- Association lookup in a written-blob list (the `Store.Read` +
`json.Unmarshal` direction of `readAndUnmarshal`). -/
def assocFind {α : Type} (h : String) : List (String × α) → Option α
  | [] => none
  | (k, a) :: rest => if k = h then some a else assocFind h rest

/-- The typed error kinds met by `Block.Previous` / `Content.Previous`:
`noPrev` is `fixity.ErrNoPrev`; `storeNotSet` is the `"Store not set"`
error; `readFailed` stands for a wrapped storage/transport failure. -/
inductive FixErr where
  | noPrev
  | storeNotSet
  | readFailed
deriving DecidableEq, Repr

/-- The persisted fields of a `fixity.Block` (src/unnamed/part_007 plus the
construction in `local.Write`): number, previous block hash, content hash.
The Go `int` number is non-negative in every reachable state and is
modelled as `Nat`. -/
structure StoredBlock where
  block : Nat
  previousBlockHash : String
  contentHash : String
deriving DecidableEq, Repr

/-- An in-memory `fixity.Block`: the persisted fields plus the transient
`Hash` and `Store` (`json:"-"`); the interface-typed `Store` pointer is
modelled by whether it is set. -/
structure Block where
  block : Nat
  previousBlockHash : String
  contentHash : String
  hash : String
  storeSet : Bool
deriving DecidableEq, Repr

/-- The persisted fields of a `fixity.Content`. -/
structure StoredContent where
  id : String
  previousContentHash : String
  blobHash : String
  indexedFields : List (String × String)
deriving DecidableEq, Repr

/-- An in-memory `fixity.Content`: persisted fields plus the transient
`Hash`, `Index` and `Store`. -/
structure Content where
  id : String
  previousContentHash : String
  blobHash : String
  indexedFields : List (String × String)
  hash : String
  index : Int
  storeSet : Bool
deriving DecidableEq, Repr

/-- Embedding of `Block.Previous` (src/unnamed/part_007 lines 216..235):
`ErrNoPrev` exactly at an empty `PreviousBlockHash`, then the nil-store
check, then `readAndUnmarshal`; on success the loaded block gets
`Hash = PreviousBlockHash` and inherits the store. -/
def blockPrevious (st : List (String × StoredBlock)) (b : Block) :
    Except FixErr Block :=
  if b.previousBlockHash = "" then .error .noPrev
  else if b.storeSet = false then .error .storeNotSet
  else
    match assocFind b.previousBlockHash st with
    | none => .error .readFailed
    | some pb =>
      .ok ⟨pb.block, pb.previousBlockHash, pb.contentHash, b.previousBlockHash, true⟩

/-- Embedding of `Content.Previous` (src/unnamed/part_007 lines 278..300):
`ErrNoPrev` exactly at an empty `PreviousContentHash`; on success the loaded
content gets `Hash = PreviousContentHash`, inherits the store, and its
transient `Index` is `c.Index + 1` when `c.Index != 0` (else the zero
value). -/
def contentPrevious (st : List (String × StoredContent)) (c : Content) :
    Except FixErr Content :=
  if c.previousContentHash = "" then .error .noPrev
  else if c.storeSet = false then .error .storeNotSet
  else
    match assocFind c.previousContentHash st with
    | none => .error .readFailed
    | some pc =>
      .ok ⟨pc.id, pc.previousContentHash, pc.blobHash, pc.indexedFields,
        c.previousContentHash, if c.index ≠ 0 then c.index + 1 else 0, true⟩

/-- C8: `Content.Previous` fails with the typed `ErrNoPrev` exactly when
`previousContentHash` is empty and `Block.Previous` fails with `ErrNoPrev`
exactly at genesis (empty `previousBlockRef`); the failure is a kind of its
own, distinct from storage errors, and on success the returned record
carries exactly the fields stored under the followed hash, with its
transient hash set to that followed hash. -/
theorem previous_noPrev_spec :
    (∀ (st : List (String × StoredContent)) (c : Content),
      contentPrevious st c = .error .noPrev ↔ c.previousContentHash = "") ∧
    (∀ (st : List (String × StoredBlock)) (b : Block),
      blockPrevious st b = .error .noPrev ↔ b.previousBlockHash = "") ∧
    (∀ (st : List (String × StoredContent)) (c : Content) (pc : Content),
      contentPrevious st c = .ok pc →
        assocFind c.previousContentHash st =
          some ⟨pc.id, pc.previousContentHash, pc.blobHash, pc.indexedFields⟩ ∧
        pc.hash = c.previousContentHash) ∧
    (∀ (st : List (String × StoredBlock)) (b : Block) (pb : Block),
      blockPrevious st b = .ok pb →
        assocFind b.previousBlockHash st =
          some ⟨pb.block, pb.previousBlockHash, pb.contentHash⟩ ∧
        pb.hash = b.previousBlockHash) := by
  refine ⟨?_, ?_, ?_, ?_⟩
  · intro st c
    constructor
    · intro h
      by_cases hp : c.previousContentHash = ""
      · exact hp
      · exfalso
        simp only [contentPrevious, if_neg hp] at h
        by_cases hs : c.storeSet = false
        · simp [hs] at h
        · simp only [if_neg hs] at h
          cases hf : assocFind c.previousContentHash st <;> simp [hf] at h
    · intro hp
      simp [contentPrevious, hp]
  · intro st b
    constructor
    · intro h
      by_cases hp : b.previousBlockHash = ""
      · exact hp
      · exfalso
        simp only [blockPrevious, if_neg hp] at h
        by_cases hs : b.storeSet = false
        · simp [hs] at h
        · simp only [if_neg hs] at h
          cases hf : assocFind b.previousBlockHash st <;> simp [hf] at h
    · intro hp
      simp [blockPrevious, hp]
  · intro st c pc h
    by_cases hp : c.previousContentHash = ""
    · simp [contentPrevious, hp] at h
    · simp only [contentPrevious, if_neg hp] at h
      by_cases hs : c.storeSet = false
      · simp [hs] at h
      · simp only [if_neg hs] at h
        cases hf : assocFind c.previousContentHash st with
        | none => simp [hf] at h
        | some q =>
          simp only [hf, Except.ok.injEq] at h
          subst h
          refine ⟨?_, rfl⟩
          simp [hf]
  · intro st b pb h
    by_cases hp : b.previousBlockHash = ""
    · simp [blockPrevious, hp] at h
    · simp only [blockPrevious, if_neg hp] at h
      by_cases hs : b.storeSet = false
      · simp [hs] at h
      · simp only [if_neg hs] at h
        cases hf : assocFind b.previousBlockHash st with
        | none => simp [hf] at h
        | some q =>
          simp only [hf, Except.ok.injEq] at h
          subst h
          refine ⟨?_, rfl⟩
          simp [hf]

/-- C8 witness: a concrete content whose previous hash is empty fails with
`ErrNoPrev`, and a concrete genesis block does as well. -/
theorem previous_noPrev_spec_witness :
    contentPrevious [] ⟨"id", "", "bh", [], "h", 1, true⟩ = .error .noPrev ∧
    blockPrevious [] ⟨1, "", "ch", "h", true⟩ = .error .noPrev :=
  ⟨(previous_noPrev_spec.1 [] ⟨"id", "", "bh", [], "h", 1, true⟩).mpr rfl,
   (previous_noPrev_spec.2.1 [] ⟨1, "", "ch", "h", true⟩).mpr rfl⟩

/-- Modelled from the spec: the external content-addressed Store computes
the Ref of a marshalled Block internally (`Write(bytes)->ref`).  Along every
single-writer chain block numbers are distinct, so we model a written
block's Ref as determined by its number. -/
def refNum (n : Nat) : String :=
  String.mk (List.replicate n 'b')

/-- Ref of a marshalled stored block (`MarshalAndWrite(l.store, block)`). -/
def blockRef (b : StoredBlock) : String :=
  refNum b.block

/-- State owned by `local.Local`: the blocks held by its store plus the
persisted head pointer (`lastBlockKey` in the bolt db; `""` when the bucket
or key is absent). -/
structure LocalState where
  blocks : List (String × StoredBlock)
  head : String
deriving DecidableEq, Repr

/-- A fresh `Local`: empty store, no head. -/
def emptyLocal : LocalState :=
  ⟨[], ""⟩

/-- Embedding of the block-chain tail of `local.Write` (src/q/fromstring.go,
second file, lines 216..303): read the head hash; when non-empty, load the
previous block to learn `lastBlock`; build
`Block{Block: lastBlock+1, PreviousBlockHash: head, ContentHash: cHash}`;
write it and persist its ref as the new head.  The chunk/blob/content
writes that precede this are summarised by the content hash `cHash` they
produce; they do not touch the chain state. -/
def localWrite (st : LocalState) (cHash : String) : Except FixErr LocalState :=
  if st.head = "" then
    let block : StoredBlock := ⟨0 + 1, st.head, cHash⟩
    .ok ⟨(blockRef block, block) :: st.blocks, blockRef block⟩
  else
    match assocFind st.head st.blocks with
    | none => .error .readFailed
    | some prevBlock =>
      let block : StoredBlock := ⟨prevBlock.block + 1, st.head, cHash⟩
      .ok ⟨(blockRef block, block) :: st.blocks, blockRef block⟩

/-- Sequential `local.Write` calls, one per content hash, oldest first. -/
def localWriteAll : List String → LocalState → Except FixErr LocalState
  | [], st => .ok st
  | c :: cs, st =>
    match localWrite st c with
    | .error e => .error e
    | .ok st' => localWriteAll cs st'

/-- Head ref of a chain holding the given content hashes, most recent
first. -/
def headOf : List String → String
  | [] => ""
  | rev => refNum rev.length

/-- The store contents after appending the given content hashes (most
recent first): block `k` carries the `k`-th oldest content hash and links to
block `k-1`. -/
def chainRev : List String → List (String × StoredBlock)
  | [] => []
  | c :: rest =>
    let blk : StoredBlock := ⟨rest.length + 1, headOf rest, c⟩
    (refNum (rest.length + 1), blk) :: chainRev rest

/-- Modelled from the spec (§4.5 `Head()`): read the head pointer and load
the block stored under it. -/
def headBlock (st : LocalState) : Option Block :=
  match assocFind st.head st.blocks with
  | none => none
  | some sb => some ⟨sb.block, sb.previousBlockHash, sb.contentHash, st.head, true⟩

/-- Walk backward from a block via `Block.Previous`, visiting at most `fuel`
blocks, stopping at the first failure (`ErrNoPrev` at genesis). -/
def walkBack (st : List (String × StoredBlock)) : Nat → Block → List Block
  | 0, _ => []
  | fuel + 1, b =>
    b ::
      match blockPrevious st b with
      | .ok pb => walkBack st fuel pb
      | .error _ => []

/-- The descending list `[n, n-1, ..., 1]`. -/
def natsDown : Nat → List Nat
  | 0 => []
  | n + 1 => (n + 1) :: natsDown n

theorem refNum_inj {a b : Nat} (h : refNum a = refNum b) : a = b := by
  have h2 : (refNum a).length = (refNum b).length := by rw [h]
  simpa [refNum, String.length] using h2

theorem refNum_ne_empty (n : Nat) : refNum (n + 1) ≠ "" := by
  intro h
  have h2 : (refNum (n + 1)).length = ("" : String).length := by rw [h]
  simp [refNum, String.length] at h2

theorem headOf_cons (c : String) (rest : List String) :
    headOf (c :: rest) = refNum (rest.length + 1) := by
  simp [headOf]

theorem localWrite_chain (rev : List String) (c : String) :
    localWrite ⟨chainRev rev, headOf rev⟩ c =
      .ok ⟨chainRev (c :: rev), headOf (c :: rev)⟩ := by
  cases rev with
  | nil =>
    simp [localWrite, chainRev, headOf, blockRef, refNum]
  | cons c' rest =>
    have hne : headOf (c' :: rest) ≠ "" := by
      rw [headOf_cons]
      exact refNum_ne_empty rest.length
    simp only [localWrite, if_neg hne]
    have hfind : assocFind (headOf (c' :: rest)) (chainRev (c' :: rest)) =
        some ⟨rest.length + 1, headOf rest, c'⟩ := by
      rw [headOf_cons]
      simp [chainRev, assocFind]
    rw [hfind]
    simp [chainRev, blockRef, refNum, headOf]

theorem localWriteAll_chain :
    ∀ (cs rev : List String),
      localWriteAll cs ⟨chainRev rev, headOf rev⟩ =
        .ok ⟨chainRev (cs.reverse ++ rev), headOf (cs.reverse ++ rev)⟩ := by
  intro cs
  induction cs with
  | nil => intro rev; simp [localWriteAll]
  | cons c cs ih =>
    intro rev
    simp only [localWriteAll]
    rw [localWrite_chain rev c]
    show localWriteAll cs ⟨chainRev (c :: rev), headOf (c :: rev)⟩ = _
    rw [ih (c :: rev)]
    have : cs.reverse ++ (c :: rev) = (c :: cs).reverse ++ rev := by
      simp
    rw [this]

theorem chainRev_find :
    ∀ (rev : List String) (n : Nat), 1 ≤ n → n ≤ rev.length →
      ∃ c, assocFind (refNum n) (chainRev rev) =
        some ⟨n, if n = 1 then "" else refNum (n - 1), c⟩ := by
  intro rev
  induction rev with
  | nil => intro n h1 h2; simp at h2; omega
  | cons c rest ih =>
    intro n h1 h2
    by_cases hn : n = rest.length + 1
    · refine ⟨c, ?_⟩
      subst hn
      have hho : headOf rest =
          if rest.length + 1 = 1 then "" else refNum (rest.length + 1 - 1) := by
        cases rest with
        | nil => simp [headOf]
        | cons c' rest' => simp [headOf]
      simp [chainRev, assocFind, hho]
    · have hne : refNum (rest.length + 1) ≠ refNum n := by
        intro h
        exact hn (refNum_inj h).symm
      have h2' : n ≤ rest.length := by
        simp at h2
        omega
      obtain ⟨c', hc'⟩ := ih n h1 h2'
      refine ⟨c', ?_⟩
      simp only [chainRev, assocFind, if_neg hne]
      exact hc'

theorem walkBack_chain (rev : List String) :
    ∀ (n : Nat), 1 ≤ n → n ≤ rev.length →
      ∀ b : Block, b.block = n → b.storeSet = true →
        b.previousBlockHash = (if n = 1 then "" else refNum (n - 1)) →
        (walkBack (chainRev rev) n b).map (fun blk => blk.block) = natsDown n ∧
        (∀ blk ∈ walkBack (chainRev rev) n b,
          (blk.previousBlockHash = "" ↔ blk.block = 1)) := by
  intro n
  induction n with
  | zero => intro h1; omega
  | succ k ih =>
    intro h1 h2 b hb hs hp
    cases k with
    | zero =>
      have hp1 : b.previousBlockHash = "" := by simpa using hp
      have hprev : blockPrevious (chainRev rev) b = .error .noPrev := by
        simp [blockPrevious, hp1]
      simp only [walkBack, hprev]
      refine ⟨?_, ?_⟩
      · simp [natsDown, hb]
      · intro blk hblk
        simp at hblk
        subst hblk
        simp [hp1, hb]
    | succ j =>
      have hpne : b.previousBlockHash = refNum (j + 1) := by
        simpa using hp
      have hne : b.previousBlockHash ≠ "" := by
        rw [hpne]
        exact refNum_ne_empty j
      obtain ⟨c, hc⟩ := chainRev_find rev (j + 1) (by omega) (by omega)
      have hprev : blockPrevious (chainRev rev) b =
          .ok ⟨j + 1, if j + 1 = 1 then "" else refNum (j + 1 - 1), c,
            b.previousBlockHash, true⟩ := by
        simp only [blockPrevious, if_neg hne, hs]
        rw [hpne, hc]
        simp
      set pb : Block := ⟨j + 1, if j + 1 = 1 then "" else refNum (j + 1 - 1), c,
        b.previousBlockHash, true⟩ with hpb
      have hstep : walkBack (chainRev rev) (j + 1 + 1) b =
          b :: walkBack (chainRev rev) (j + 1) pb := by
        conv_lhs => rw [walkBack]
        rw [hprev]
      rw [hstep]
      obtain ⟨ihmap, ihmem⟩ := ih (by omega) (by omega) pb rfl rfl (by rw [hpb])
      refine ⟨?_, ?_⟩
      · rw [List.map_cons, ihmap]
        simp [natsDown, hb]
      · intro blk hblk
        rcases List.mem_cons.mp hblk with h | h
        · subst h
          constructor
          · intro h0; exact absurd h0 hne
          · intro h0; omega
        · exact ihmem blk h

/-- C4: after `K ≥ 1` sequential `Write` appends starting from an empty
store, `localWriteAll` succeeds; walking back from the Head via
`Block.Previous` visits exactly `K` blocks whose numbers read `K` down to
`1` (each block's number one more than its predecessor's, no gaps or
duplicates), and `previousBlockRef` is empty exactly at the genesis block. -/
theorem chain_integrity (cs : List String) (hcs : cs ≠ []) :
    ∃ st : LocalState, localWriteAll cs emptyLocal = .ok st ∧
      ∃ hb : Block, headBlock st = some hb ∧
        hb.block = cs.length ∧
        (walkBack st.blocks cs.length hb).map (fun blk => blk.block) =
          natsDown cs.length ∧
        ∀ blk ∈ walkBack st.blocks cs.length hb,
          (blk.previousBlockHash = "" ↔ blk.block = 1) := by
  have hempty : emptyLocal = ⟨chainRev [], headOf []⟩ := rfl
  have hall := localWriteAll_chain cs []
  rw [← hempty] at hall
  simp only [List.append_nil] at hall
  refine ⟨⟨chainRev cs.reverse, headOf cs.reverse⟩, hall, ?_⟩
  obtain ⟨c0, rev0, hrev⟩ : ∃ c0 rev0, cs.reverse = c0 :: rev0 := by
    cases h : cs.reverse with
    | nil =>
      exfalso
      have := congrArg List.reverse h
      simp at this
      exact hcs this
    | cons a b => exact ⟨a, b, rfl⟩
  have hKr : cs.reverse.length = rev0.length + 1 := by
    rw [hrev]
    rfl
  have hK : cs.length = rev0.length + 1 := by
    rw [← List.length_reverse]
    exact hKr
  obtain ⟨c, hc⟩ := chainRev_find cs.reverse cs.length (by omega) (by omega)
  have hhead : headOf cs.reverse = refNum cs.length := by
    rw [hrev, headOf_cons]
    congr 1
    omega
  have hheadblock : headBlock ⟨chainRev cs.reverse, headOf cs.reverse⟩ =
      some ⟨cs.length, if cs.length = 1 then "" else refNum (cs.length - 1), c,
        headOf cs.reverse, true⟩ := by
    simp only [headBlock, hhead, hc]
  refine ⟨_, hheadblock, rfl, ?_⟩
  exact walkBack_chain cs.reverse cs.length (by omega) (by omega) _ rfl rfl rfl

/-- C4 witness: chain integrity after three concrete appends. -/
theorem chain_integrity_witness :
    ∃ st : LocalState, localWriteAll ["x", "y", "z"] emptyLocal = .ok st ∧
      ∃ hb : Block, headBlock st = some hb ∧
        hb.block = (["x", "y", "z"] : List String).length ∧
        (walkBack st.blocks (["x", "y", "z"] : List String).length hb).map
          (fun blk => blk.block) = natsDown (["x", "y", "z"] : List String).length ∧
        ∀ blk ∈ walkBack st.blocks (["x", "y", "z"] : List String).length hb,
          (blk.previousBlockHash = "" ↔ blk.block = 1) :=
  chain_integrity ["x", "y", "z"] (by simp)

end Fixity

namespace Q

/-- Modelled from the spec: `operator.Equal` lives in the external
`fixity/q/operator` package; the spec only requires a distinguished Equal
operator. -/
def operatorEqual : String := "eq"

/-- A `q.Constraint`: `{Operator string, Field *string, Value *value.Value}`;
the pointer fields are options and the string-valued `value.String` wrapper
is a plain string. -/
structure Constraint where
  operator : String
  field : Option String
  value : Option String
deriving DecidableEq, Repr

/-- Modelled from the spec: "A Query is a boolean tree of Constraints".
`New().Const(c)` builds a single-constraint query, `New().And(cs...)` an
AND over constraints, and an OR combination is available to the builder
(the spec's parser description mentions an OR'd free-text constraint). -/
inductive QueryTree where
  | const (c : Constraint)
  | and (cs : List Constraint)
  | or (left : QueryTree) (right : QueryTree)
deriving DecidableEq, Repr

/-- Does the query contain an OR combination anywhere? -/
def hasOrNode : QueryTree → Bool
  | .const _ => false
  | .and _ => false
  | .or _ _ => true

/-- Split a char list at the first occurrence of `c`, if any. -/
def splitOnceChar (c : Char) : List Char → Option (List Char × List Char)
  | [] => none
  | x :: xs =>
    if x = c then some ([], xs)
    else
      match splitOnceChar c xs with
      | none => none
      | some (a, b) => some (x :: a, b)

/-- Embedding of `splitPart` (src/q/fromstring.go lines 70..87):
`strings.SplitN(s, ":", 3)` yields `(op, field, value)` — one part is a bare
value, two parts are `field:value`, three parts are `op:field:value` with
any further `:` kept inside the value. -/
def splitPart (s : String) : String × String × String :=
  match splitOnceChar ':' s.data with
  | none => ("", "", s)
  | some (a, rest) =>
    match splitOnceChar ':' rest with
    | none => ("", String.mk a, String.mk rest)
    | some (b, rest2) => (String.mk a, String.mk b, String.mk rest2)

/-- A token is fieldless when its split produces empty op and field
(`op == "" && field == ""` in `FromString`). -/
def isFieldless (p : String) : Prop :=
  (splitPart p).1 = "" ∧ (splitPart p).2.1 = ""

instance (p : String) : Decidable (isFieldless p) := by
  unfold isFieldless
  infer_instance

/-- The constraint built for a fielded token: `eq` and the empty op both
normalise to `operator.Equal`; other operators pass through unchanged. -/
def constraintOf (p : String) : Constraint :=
  let t := splitPart p
  let op := if t.1 = "eq" then operatorEqual
    else if t.1 = "" then operatorEqual else t.1
  ⟨op, some t.2.1, some t.2.2⟩

/-- Modelled from the spec: `str.ToArgv` (external `mgutz/str` package)
splits the input into "whitespace/quote-aware tokens": spaces separate
tokens except inside double quotes, and the quotes themselves are not part
of the token. -/
def toArgvAux : List Char → Bool → List Char → List String
  | [], _, cur => if cur = [] then [] else [String.mk cur.reverse]
  | ch :: rest, inQ, cur =>
    if ch = '"' then toArgvAux rest (!inQ) cur
    else if ch = ' ' ∧ inQ = false then
      if cur = [] then toArgvAux rest false []
      else String.mk cur.reverse :: toArgvAux rest false []
    else toArgvAux rest inQ (ch :: cur)

/-- Tokenize a query string. -/
def toArgv (s : String) : List String :=
  toArgvAux s.data false []

/-- Embedding of `strings.Join(fieldless, " ")`. -/
def joinSpace : List String → String
  | [] => ""
  | [x] => x
  | x :: xs => x ++ " " ++ joinSpace xs

/-- The token loop of `FromString` (src/q/fromstring.go lines 26..53),
returning the collected fieldless values and constraints in token order. -/
def fromStringLoop : List String → List String × List Constraint
  | [] => ([], [])
  | p :: rest =>
    let t := splitPart p
    let out := fromStringLoop rest
    if t.1 = "" ∧ t.2.1 = "" then (t.2.2 :: out.1, out.2)
    else (out.1, constraintOf p :: out.2)

/-- Embedding of `FromString` (src/q/fromstring.go lines 18..68): tokenize,
build one constraint per fielded token, collect fieldless tokens, append one
space-joined free-text Equal constraint if any fieldless tokens exist, and
return a single-constraint query or the AND of all constraints. -/
def fromString (s : String) : QueryTree :=
  let parts := toArgv s
  let out := fromStringLoop parts
  let cs := if out.1 ≠ [] then
      out.2 ++ [⟨operatorEqual, none, some (joinSpace out.1)⟩]
    else out.2
  match cs with
  | [c] => .const c
  | _ => .and cs

/-- The spec's words for C5: field constraints are combined with AND and the
free-text Equal constraint over the space-joined fieldless tokens is OR'd
with them. -/
def claimFromString (s : String) : QueryTree :=
  let parts := toArgv s
  let fieldcs := (parts.filter fun p => !decide (isFieldless p)).map constraintOf
  let fieldless := (parts.filter fun p => decide (isFieldless p)).map
    fun p => (splitPart p).2.2
  if fieldless = [] then .and fieldcs
  else .or (.and fieldcs) (.const ⟨operatorEqual, none, some (joinSpace fieldless)⟩)

theorem fromStringLoop_eq (parts : List String) :
    fromStringLoop parts =
      ((parts.filter fun p => decide (isFieldless p)).map (fun p => (splitPart p).2.2),
       (parts.filter fun p => !decide (isFieldless p)).map constraintOf) := by
  induction parts with
  | nil => rfl
  | cons p rest ih =>
    by_cases h : isFieldless p
    · have hb : decide (isFieldless p) = true := by simpa using h
      have hcond : (splitPart p).1 = "" ∧ (splitPart p).2.1 = "" := h
      simp only [fromStringLoop, if_pos hcond, ih, List.filter_cons, hb,
        Bool.not_true, if_true]
      simp
    · have hb : decide (isFieldless p) = false := by simpa using h
      have hcond : ¬ ((splitPart p).1 = "" ∧ (splitPart p).2.1 = "") := h
      simp only [fromStringLoop, if_neg hcond, ih, List.filter_cons, hb,
        Bool.not_false, if_true]
      simp

/-- C5 (amended): `FromString` splits the input into whitespace/quote-aware
tokens, splits each token on its first one or two `:` separators, builds one
Equal-normalised constraint per fielded token (in token order), and appends
— AND-combined with the rest, not OR'd — one extra free-text Equal
constraint over all fieldless token values joined by spaces, if any exist;
a single resulting constraint is returned alone (`Const`) rather than
wrapped in an AND. -/
theorem fromString_characterization (s : String) :
    fromString s =
      (let parts := toArgv s
       let fieldless := (parts.filter fun p => decide (isFieldless p)).map
         fun p => (splitPart p).2.2
       let cs := ((parts.filter fun p => !decide (isFieldless p)).map constraintOf) ++
         (if fieldless = [] then []
          else [⟨operatorEqual, none, some (joinSpace fieldless)⟩])
       match cs with
       | [c] => QueryTree.const c
       | _ => QueryTree.and cs) := by
  simp only [fromString, fromStringLoop_eq]
  by_cases hF : (toArgv s |>.filter fun p => decide (isFieldless p)) = []
  · simp [hF]
    rfl
  · simp [hF]
    rfl

/-- C5 counterexample: on the input `"a b:c"` (one fieldless token `a`, one
fielded token `b:c`) the parser AND-combines the free-text constraint with
the field constraint; no OR node exists, contradicting the claim's "OR'd
free-text Equal constraint". -/
theorem fromString_no_or :
    fromString "a b:c" =
      QueryTree.and [⟨"eq", some "b", some "c"⟩, ⟨"eq", none, some "a"⟩] ∧
    hasOrNode (fromString "a b:c") = false ∧
    fromString "a b:c" ≠ claimFromString "a b:c" := by
  refine ⟨by decide, by decide, by decide⟩

end Q

namespace Dbindex

/-- An `index.Query` as used by `Dbindex.Query` and built by
`Node.GetQueryHandler` (the `index` package declaration is not under src;
fields and Go `int` types follow the uses).  -/
structure Query where
  fromEntry : Int
  limit : Int
  indexVersion : String
deriving DecidableEq, Repr

/-- An `index.Results` value: the current index version plus the hashes. -/
structure Results where
  indexVersion : String
  hashes : List String
deriving DecidableEq, Repr

/-- The error outcomes of `Dbindex.Query`: the two typed sentinels
`index.ErrIndexVersionsDoNotMatch` and `index.ErrNoQueryResults`, wrapped
database failures, and the runtime panic Go raises for
`make([]string, n)` with negative `n`. -/
inductive IndexErr where
  | indexVersionsDoNotMatch
  | noQueryResults
  | dbFailure
  | negativeLengthMake
deriving DecidableEq, Repr

/-- Outcome of one `db.GetIndexEntry` call: a hash, `database.ErrNoRecord`,
or another database error. -/
inductive EntryResult where
  | found (h : String)
  | noRecord
  | failure
deriving DecidableEq, Repr

/-- Modelled from the spec: the database backing the index (the
`kala/database` package is not under src).  `GetNodeId` either yields the
node id (the index version) or fails; `GetIndexEntry i` yields an entry,
reports no record, or fails. -/
structure Db where
  nodeId : Option String
  entries : Int → EntryResult

/-- The entry-fetching loop of `Dbindex.Query`
(`for i := 0; i < q.Limit; i++`): stop with the collected prefix at the
first `ErrNoRecord`, propagate other database errors. -/
def fetchEntries (db : Db) (fromEntry : Int) : Nat → Int → Except IndexErr (List String)
  | 0, _ => .ok []
  | n + 1, i =>
    match db.entries (fromEntry + i) with
    | .failure => .error .dbFailure
    | .noRecord => .ok []
    | .found h =>
      match fetchEntries db fromEntry n (i + 1) with
      | .error e => .error e
      | .ok rest => .ok (h :: rest)

/-- Embedding of `Dbindex.Query` (src/index/dbindex/index.go lines 30..71):
get the node id; fail `ErrIndexVersionsDoNotMatch` when a non-empty
caller-supplied version disagrees; fail `ErrNoQueryResults` when the limit
is 0; fetch entries only when `FromEntry` is nonzero (with
`make([]string, q.Limit)` panicking on a negative limit); otherwise fail
`ErrNoQueryResults`. -/
def dbQuery (db : Db) (q : Query) : Except IndexErr Results :=
  match db.nodeId with
  | none => .error .dbFailure
  | some indexVersion =>
    if q.indexVersion ≠ "" ∧ indexVersion ≠ q.indexVersion then
      .error .indexVersionsDoNotMatch
    else if q.limit = 0 then .error .noQueryResults
    else if q.fromEntry ≠ 0 then
      if q.limit < 0 then .error .negativeLengthMake
      else
        match fetchEntries db q.fromEntry q.limit.toNat 0 with
        | .error e => .error e
        | .ok hashes => .ok ⟨indexVersion, hashes⟩
    else .error .noQueryResults

/-- Modelled from Go's `strconv.Atoi`: digit-list value. -/
def digitsVal (l : List Char) : Option Nat :=
  if l = [] then none
  else
    l.foldl
      (fun acc c =>
        match acc with
        | none => none
        | some n => if c.isDigit then some (n * 10 + (c.toNat - 48)) else none)
      (some 0)

/-- Modelled from Go's `strconv.Atoi`: an optional sign followed by one or
more digits; anything else is an error (`none`). -/
def atoi (s : String) : Option Int :=
  match s.data with
  | '+' :: rest => (digitsVal rest).map Int.ofNat
  | '-' :: rest => (digitsVal rest).map (fun n => -(Int.ofNat n))
  | l => (digitsVal l).map Int.ofNat

/-- The query built by `Node.GetQueryHandler` before any parameters are
applied: `index.Query{ Limit: 5 }` — a default limit of 5, zero values
elsewhere. -/
def defaultQuery : Query :=
  ⟨0, 5, ""⟩

/-- The parameter loop of `Node.GetQueryHandler` (src/node/handlers.go
lines 117..142): `fromEntry` and `limit` must parse as integers and any
unrecognised key is refused; each failure writes
`http.StatusInternalServerError` (500). -/
def buildQueryAux : List (String × String) → Query → Except Nat Query
  | [], q => .ok q
  | (k, v) :: rest, q =>
    if k = "fromEntry" then
      match atoi v with
      | none => .error 500
      | some i => buildQueryAux rest { q with fromEntry := i }
    else if k = "limit" then
      match atoi v with
      | none => .error 500
      | some i => buildQueryAux rest { q with limit := i }
    else if k = "indexVersion" then
      buildQueryAux rest { q with indexVersion := v }
    else .error 500

/-- Build the query of `Node.GetQueryHandler` from the request parameters. -/
def buildQuery (params : List (String × String)) : Except Nat Query :=
  buildQueryAux params defaultQuery

/-- Embedding of `Node.GetQueryHandler` (src/node/handlers.go lines
110..168), reduced to the HTTP status it writes. -/
def getQueryHandler (db : Db) (params : List (String × String)) : Nat :=
  match buildQuery params with
  | .error status => status
  | .ok q =>
    match dbQuery db q with
    | .error .noQueryResults => 404
    | .error .indexVersionsDoNotMatch => 500
    | .error _ => 500
    | .ok _ => 200

/-- Embedding of `Node.GetBlobHandler` (src/node/handlers.go lines 49..70),
reduced to the HTTP status: 404 on `HashNotFoundErr`, 500 on other store
errors, 200 on success. -/
def getBlobHandler (s : DiskStore.Disk) (hash : String) : Nat :=
  match DiskStore.diskRead s hash with
  | .error .hashNotFound => 404
  | .error _ => 500
  | .ok _ => 200

/-- Embedding of `Node.HeadBlobHandler` (src/node/handlers.go lines
30..47): 404 when the blob does not exist, 200 otherwise. -/
def headBlobHandler (s : DiskStore.Disk) (hash : String) : Nat :=
  if DiskStore.diskExists s hash then 200 else 404

/-- Embedding of `Node.PutBlobHandler` (src/node/handlers.go lines 72..87):
403 on `HashNotMatchContentErr`, 500 on other write errors, 200 on
success. -/
def putBlobHandler (s : DiskStore.Disk) (hash : String) (body : DiskStore.Bytes) : Nat :=
  match DiskStore.diskWriteHash s hash body with
  | .error .hashNotMatchContent => 403
  | .error _ => 500
  | .ok _ => 200

/-- An index database whose node id is "v" and which holds no entries. -/
def dbEmpty : Db :=
  ⟨some "v", fun _ => .noRecord⟩

/-- An index database whose node id is "v" and which holds an entry at
every position. -/
def dbRich : Db :=
  ⟨some "v", fun _ => .found "h"⟩

/-- An index database whose `GetNodeId` fails. -/
def dbFailing : Db :=
  ⟨none, fun _ => .noRecord⟩

theorem fetchEntries_error (db : Db) (fromEntry : Int) :
    ∀ (n : Nat) (i : Int) (e : IndexErr),
      fetchEntries db fromEntry n i = .error e → e = .dbFailure := by
  intro n
  induction n with
  | zero => intro i e h; simp [fetchEntries] at h
  | succ n ih =>
    intro i e h
    simp only [fetchEntries] at h
    cases hent : db.entries (fromEntry + i) with
    | failure =>
      rw [hent] at h
      simp at h
      exact h.symm
    | noRecord => rw [hent] at h; simp at h
    | found hsh =>
      rw [hent] at h
      cases hrec : fetchEntries db fromEntry n (i + 1) with
      | error e' =>
        rw [hrec] at h
        simp at h
        rw [← h]
        exact ih (i + 1) e' hrec
      | ok rest => rw [hrec] at h; simp at h

theorem buildQueryAux_limit :
    ∀ (params : List (String × String)) (q0 q : Query),
      (∀ kv ∈ params, kv.1 ≠ "limit") →
      buildQueryAux params q0 = .ok q → q.limit = q0.limit := by
  intro params
  induction params with
  | nil =>
    intro q0 q _ h
    simp [buildQueryAux] at h
    rw [← h]
  | cons kv rest ih =>
    intro q0 q hk h
    obtain ⟨k, v⟩ := kv
    have hkl : k ≠ "limit" := hk (k, v) (List.mem_cons_self _ _)
    by_cases hfe : k = "fromEntry"
    · simp only [buildQueryAux, if_pos hfe] at h
      cases hat : atoi v with
      | none => rw [hat] at h; simp at h
      | some i =>
        rw [hat] at h
        simp only [] at h
        exact ih { q0 with fromEntry := i } q
          (fun kv hkv => hk kv (List.mem_cons_of_mem _ hkv)) h
    · by_cases hiv : k = "indexVersion"
      · simp only [buildQueryAux, if_neg hfe, if_neg hkl, if_pos hiv] at h
        exact ih { q0 with indexVersion := v } q
          (fun kv hkv => hk kv (List.mem_cons_of_mem _ hkv)) h
      · simp only [buildQueryAux, if_neg hfe, if_neg hkl, if_neg hiv] at h
        simp at h

/-- C6 (amended): with the backing database reachable, `Dbindex.Query`
fails with the typed `ErrIndexVersionsDoNotMatch` exactly when the
caller-supplied `indexVersion` is non-empty and disagrees with the current
one; it fails with the typed `ErrNoQueryResults` when the limit is 0 (and
also whenever `fromEntry` is 0); an EMPTY requested page at a nonzero
`fromEntry` is NOT an error — it yields a successful result with an empty
hash list; and when the HTTP boundary receives no `limit` parameter the
query's limit defaults to 5. -/
theorem dbQuery_error_spec :
    (∀ (db : Db) (q : Query) (v : String), db.nodeId = some v →
      (dbQuery db q = .error .indexVersionsDoNotMatch ↔
        (q.indexVersion ≠ "" ∧ v ≠ q.indexVersion))) ∧
    (∀ (db : Db) (q : Query) (v : String), db.nodeId = some v →
      (q.indexVersion = "" ∨ q.indexVersion = v) → q.limit = 0 →
      dbQuery db q = .error .noQueryResults) ∧
    (∀ (db : Db) (q : Query) (v : String), db.nodeId = some v →
      (q.indexVersion = "" ∨ q.indexVersion = v) →
      q.fromEntry ≠ 0 → 0 < q.limit → (∀ j, db.entries j = .noRecord) →
      dbQuery db q = .ok ⟨v, []⟩) ∧
    (∀ (params : List (String × String)) (q : Query),
      buildQuery params = .ok q → (∀ kv ∈ params, kv.1 ≠ "limit") →
      q.limit = 5) := by
  refine ⟨?_, ?_, ?_, ?_⟩
  · intro db q v hnode
    constructor
    · intro h
      by_contra hcond
      simp only [dbQuery, hnode, if_neg hcond] at h
      by_cases hl : q.limit = 0
      · simp [hl] at h
      · simp only [if_neg hl] at h
        by_cases hf : q.fromEntry ≠ 0
        · simp only [if_pos hf] at h
          by_cases hneg : q.limit < 0
          · simp [hneg] at h
          · simp only [if_neg hneg] at h
            cases hrec : fetchEntries db q.fromEntry q.limit.toNat 0 with
            | error e =>
              rw [hrec] at h
              simp at h
              have := fetchEntries_error db q.fromEntry q.limit.toNat 0 e hrec
              rw [this] at h
              exact absurd h (by simp)
            | ok hashes => rw [hrec] at h; simp at h
        · simp [hf] at h
    · intro hcond
      simp [dbQuery, hnode, hcond]
  · intro db q v hnode hver hl
    have hcond : ¬ (q.indexVersion ≠ "" ∧ v ≠ q.indexVersion) := by
      rcases hver with h | h
      · intro hc; exact hc.1 h
      · intro hc; exact hc.2 h.symm
    simp [dbQuery, hnode, hcond, hl]
  · intro db q v hnode hver hfe hl hemp
    have hcond : ¬ (q.indexVersion ≠ "" ∧ v ≠ q.indexVersion) := by
      rcases hver with h | h
      · intro hc; exact hc.1 h
      · intro hc; exact hc.2 h.symm
    have hl0 : ¬ q.limit = 0 := by omega
    have hneg : ¬ q.limit < 0 := by omega
    have hfetch : fetchEntries db q.fromEntry q.limit.toNat 0 = .ok [] := by
      have hn : ∃ n, q.limit.toNat = n + 1 := by
        refine ⟨q.limit.toNat - 1, ?_⟩
        omega
      obtain ⟨n, hn⟩ := hn
      rw [hn]
      simp [fetchEntries, hemp]
    simp [dbQuery, hnode, hcond, hl0, hfe, hneg, hfetch]
  · intro params q hbuild hnolimit
    have := buildQueryAux_limit params defaultQuery q hnolimit hbuild
    simpa [defaultQuery] using this

/-- C6 witness: limit 0 on a concrete database yields `ErrNoQueryResults`,
and a parameter list without `limit` keeps the default 5. -/
theorem dbQuery_error_spec_witness :
    dbQuery dbEmpty ⟨1, 0, ""⟩ = .error .noQueryResults ∧
    ∀ q, buildQuery [("fromEntry", "2")] = .ok q → q.limit = 5 :=
  ⟨dbQuery_error_spec.2.1 dbEmpty ⟨1, 0, ""⟩ "v" rfl (Or.inl rfl) rfl,
   fun q hq => dbQuery_error_spec.2.2.2 [("fromEntry", "2")] q hq
     (by intro kv hkv; simp at hkv; rw [hkv]; decide)⟩

/-- C6 counterexample: an empty page at nonzero `fromEntry` does NOT fail
with `ErrNoQueryResults` — the query succeeds with an empty hash list. -/
theorem dbQuery_emptyPage_ok :
    dbQuery dbEmpty ⟨1, 5, ""⟩ = .ok ⟨"v", []⟩ ∧
    dbQuery dbEmpty ⟨1, 5, ""⟩ ≠ .error .noQueryResults := by
  have h1 : dbQuery dbEmpty ⟨1, 5, ""⟩ = .ok ⟨"v", []⟩ := rfl
  refine ⟨h1, ?_⟩
  rw [h1]
  simp

/-- C10: whenever `FromEntry` is 0 (its zero-value default) and the version
check passes, `Dbindex.Query` returns the typed `ErrNoQueryResults` no
matter what the index contains — entries are fetched only for nonzero
`FromEntry`. -/
theorem dbQuery_fromEntry_zero (db : Db) (q : Query) (v : String)
    (hnode : db.nodeId = some v)
    (hver : q.indexVersion = "" ∨ q.indexVersion = v)
    (hfe : q.fromEntry = 0) :
    dbQuery db q = .error .noQueryResults := by
  have hcond : ¬ (q.indexVersion ≠ "" ∧ v ≠ q.indexVersion) := by
    rcases hver with h | h
    · intro hc; exact hc.1 h
    · intro hc; exact hc.2 h.symm
  by_cases hl : q.limit = 0
  · simp [dbQuery, hnode, hcond, hl]
  · simp [dbQuery, hnode, hcond, hl, hfe]

/-- C10 witness: a database holding an entry at every position still
returns `ErrNoQueryResults` for `fromEntry = 0`. -/
theorem dbQuery_fromEntry_zero_witness :
    dbQuery dbRich ⟨0, 5, ""⟩ = .error .noQueryResults :=
  dbQuery_fromEntry_zero dbRich ⟨0, 5, ""⟩ "v" rfl (Or.inl rfl) rfl

/-- C7: the handlers' status mapping, evaluated: reading or
existence-checking an absent blob gives 404; writing mismatching content by
ref gives 403; an empty query result gives 404; a backend failure gives
500 — but an INVALID QUERY PARAMETER (non-integer `fromEntry`) gives 500,
not the 400 the spec's design (§6/§7 malformed request → 400) prescribes. -/
theorem handlers_status_eval :
    getQueryHandler dbEmpty [("fromEntry", "abc")] = 500 ∧
    getQueryHandler dbEmpty [] = 404 ∧
    getQueryHandler dbFailing [("fromEntry", "1")] = 500 ∧
    headBlobHandler ⟨[]⟩ "absent" = 404 ∧
    getBlobHandler ⟨[]⟩ "absent" = 404 ∧
    putBlobHandler ⟨[]⟩ "bogus" [1, 2, 3] = 403 := by
  refine ⟨by decide, by decide, by decide, by decide, by decide, by decide⟩

end Dbindex
